import Mathlib

/-!
Verification of the AstroBenchmarks leaderboard generator
(`scripts/generate_leaderboard.py`).

The development shallowly embeds the discovery → normalization →
deduplication → ranking → rendering pipeline of the generator.  Python
dictionaries parsed from JSON files are modelled by the `Json` inductive
type; scalar field values carried by result records are modelled by `Val`
(nested JSON values never influence any of the verified properties, the
renderer only ever stringifies them).  Machine floats that occur as Unix
timestamps and as numeric sort keys are modelled by `Int`: every comparison
the program performs on them is order-theoretic, so the integer model is
faithful for the stated properties.  Filesystem trees are modelled by
explicit nested lists mirroring the directory layout the script walks.
-/

/-- JSON values as returned by `json.load`. -/
inductive Json where
  | null : Json
  | bool (b : Bool) : Json
  | num (n : Int) : Json
  | str (s : String) : Json
  | arr (elems : List Json) : Json
  | obj (fields : List (String × Json)) : Json

/-- Scalar record-field values (Python `None` / `bool` / number / `str`).
`parse_result_file` stores `data.get(key)` for each template key; a key
absent from the raw object and a raw JSON `null` both become Python `None`,
modelled by `Val.null`. -/
inductive Val where
  | null : Val
  | bool (b : Bool) : Val
  | num (n : Int) : Val
  | str (s : String) : Val
deriving DecidableEq, Repr

/-- Python truthiness of a JSON value (`if code_data:`, `info or {}` …). -/
def truthyJson : Json → Bool
  | .null => false
  | .bool b => b
  | .num n => n ≠ 0
  | .str s => s ≠ ""
  | .arr xs => !xs.isEmpty
  | .obj fs => !fs.isEmpty

/-- Python truthiness of a scalar value. -/
def truthyVal : Val → Bool
  | .null => false
  | .bool b => b
  | .num n => n ≠ 0
  | .str s => s ≠ ""

/-- Python `str()` of a scalar value. -/
def strOfVal : Val → String
  | .null => "None"
  | .bool true => "True"
  | .bool false => "False"
  | .num n => toString n
  | .str s => s

/-- Field lookup in a parsed JSON object, i.e. Python `data.get(key)`
(`None` when the key is absent). -/
def jsonGet (fields : List (String × Json)) (key : String) : Json :=
  match fields.lookup key with
  | some v => v
  | none => Json.null

/- ### `html_escape` (source lines 233-241)

`html_escape` chains five single-character `str.replace` calls, replacing
`&` first.  We model strings as `List Char`; a single-character
`str.replace` is exactly a character-wise concat-map. -/

/-- Python `s.replace(pat, rep)` for a one-character pattern. -/
def pyReplace (pat : Char) (rep : List Char) : List Char → List Char
  | [] => []
  | c :: cs => if c = pat then rep ++ pyReplace pat rep cs else c :: pyReplace pat rep cs

/-- The double-quote character. -/
def quoteC : Char := Char.ofNat 34

/-- The apostrophe character. -/
def aposC : Char := Char.ofNat 39

/-- `html_escape` from the source: the five replacements in source order,
`&` innermost (applied first). -/
def html_escape (s : List Char) : List Char :=
  pyReplace aposC ([ '&', '#', '3', '9', ';'])
    (pyReplace quoteC ([ '&', 'q', 'u', 'o', 't', ';'])
      (pyReplace '>' ([ '&', 'g', 't', ';'])
        (pyReplace '<' ([ '&', 'l', 't', ';'])
          (pyReplace '&' ([ '&', 'a', 'm', 'p', ';']) s))))

/-- The ideal per-character escape table: each of the five
markup-significant characters to its entity, all others unchanged. -/
def escChar (c : Char) : List Char :=
  if c = '&' then [ '&', 'a', 'm', 'p', ';']
  else if c = '<' then [ '&', 'l', 't', ';']
  else if c = '>' then [ '&', 'g', 't', ';']
  else if c = quoteC then [ '&', 'q', 'u', 'o', 't', ';']
  else if c = aposC then [ '&', '#', '3', '9', ';']
  else [c]

/-- Character-wise escaping (the intended reading of the spec). -/
def escaped (s : List Char) : List Char :=
  (s.map escChar).flatten

theorem pyReplace_append (pat : Char) (rep : List Char) (a b : List Char) :
    pyReplace pat rep (a ++ b) = pyReplace pat rep a ++ pyReplace pat rep b := by
  induction a with
  | nil => rfl
  | cons c cs ih =>
      simp only [List.cons_append, pyReplace]
      by_cases h : c = pat
      · simp [h, ih]
      · simp [h, ih]

theorem html_escape_append (a b : List Char) :
    html_escape (a ++ b) = html_escape a ++ html_escape b := by
  simp [html_escape, pyReplace_append]

theorem html_escape_nil : html_escape [] = [] := rfl

/-- On a single character the five-pass chain agrees with the ideal table. -/
theorem html_escape_single (c : Char) : html_escape [c] = escChar c := by
  by_cases h1 : c = '&'
  · subst h1; rfl
  · by_cases h2 : c = '<'
    · subst h2; rfl
    · by_cases h3 : c = '>'
      · subst h3; rfl
      · by_cases h4 : c = quoteC
        · subst h4; rfl
        · by_cases h5 : c = aposC
          · subst h5; rfl
          · simp [html_escape, pyReplace, escChar, h1, h2, h3, h4, h5]

theorem html_escape_eq_escaped (s : List Char) : html_escape s = escaped s := by
  induction s with
  | nil => rfl
  | cons c cs ih =>
      have hc : (c :: cs) = [c] ++ cs := rfl
      rw [hc, html_escape_append, html_escape_single, ih]
      simp [escaped]

/-- Every character of an entity produced by `escChar` is markup-safe. -/
theorem escChar_safe (c d : Char) (hd : d ∈ escChar c) :
    d ≠ '<' ∧ d ≠ '>' ∧ d ≠ quoteC ∧ d ≠ aposC := by
  unfold escChar at hd
  by_cases h1 : c = '&'
  · rw [if_pos h1] at hd
    fin_cases hd <;> exact ⟨by decide, by decide, by decide, by decide⟩
  · rw [if_neg h1] at hd
    by_cases h2 : c = '<'
    · rw [if_pos h2] at hd
      fin_cases hd <;> exact ⟨by decide, by decide, by decide, by decide⟩
    · rw [if_neg h2] at hd
      by_cases h3 : c = '>'
      · rw [if_pos h3] at hd
        fin_cases hd <;> exact ⟨by decide, by decide, by decide, by decide⟩
      · rw [if_neg h3] at hd
        by_cases h4 : c = quoteC
        · rw [if_pos h4] at hd
          fin_cases hd <;> exact ⟨by decide, by decide, by decide, by decide⟩
        · rw [if_neg h4] at hd
          by_cases h5 : c = aposC
          · rw [if_pos h5] at hd
            fin_cases hd <;> exact ⟨by decide, by decide, by decide, by decide⟩
          · rw [if_neg h5] at hd
            rcases List.mem_singleton.mp hd with rfl
            exact ⟨fun h => h2 h, fun h => h3 h, fun h => h4 h, fun h => h5 h⟩

theorem html_escape_safe (s : List Char) (d : Char) (hd : d ∈ html_escape s) :
    d ≠ '<' ∧ d ≠ '>' ∧ d ≠ quoteC ∧ d ≠ aposC := by
  rw [html_escape_eq_escaped, escaped] at hd
  rcases List.mem_flatten.mp hd with ⟨l, hl, hdl⟩
  rcases List.mem_map.mp hl with ⟨c, _, hc⟩
  exact escChar_safe c d (hc ▸ hdl)

/-- `html_escape` on Lean strings (the source applies it to `str(text)`). -/
def htmlEscapeS (s : String) : String :=
  String.mk (html_escape s.data)

/- ### BenchmarkRegistry: `discover_benchmarks` (source lines 24-52)

`read_json_file` returns `None` on a missing or unparseable file; we model
its result directly as `Option Json`.  `info = read_json_file(...) or {}`
replaces any falsy value by the empty dict; a *truthy non-dict* value
survives the `or` and then crashes at `info.get(...)` with an
`AttributeError`, modelled by `Except.error`. -/

/-- One immediate subdirectory of `benchmarks/`: its name, the parse result
of `info.json` and `template.json` (`none` = missing or unparseable), and
whether `README.md` exists. -/
structure BenchDirE where
  name : String
  infoJson : Option Json
  templateJson : Option Json
  hasReadme : Bool

/-- A benchmark definition as built at source lines 40-51.  Values coming
from `info.get` are kept as raw JSON, exactly as Python keeps them. -/
structure BenchDef where
  name : Json
  description : Json
  tags : Json
  sort_by : Json
  sort_dir : Json
  data_file : Json
  readme : Option String
  template_keys : List String

/-- Python `x or {}` applied to the result of `read_json_file`. -/
def orEmptyObj : Option Json → Json
  | some v => if truthyJson v then v else Json.obj []
  | none => Json.obj []

/-- Python `d.get(key, default)` on a parsed JSON object. -/
def jsonGetD (fields : List (String × Json)) (key : String) (dflt : Json) : Json :=
  match fields.lookup key with
  | some v => v
  | none => dflt

/-- The all-defaults definition produced for a directory whose `info.json`
and `template.json` are missing or unparseable. -/
def defaultBenchDef (dirname : String) (hasReadme : Bool) : BenchDef :=
  { name := Json.str dirname
    description := Json.str ""
    tags := Json.arr []
    sort_by := Json.null
    sort_dir := Json.str "asc"
    data_file := Json.bool false
    readme := if hasReadme then some ("benchmarks/" ++ dirname ++ "/README.md") else none
    template_keys := [] }

/-- `discover_benchmarks`, source lines 24-52.  Produces the registry in
directory-iteration order, or `Except.error` when Python would raise. -/
def discover_benchmarks : List BenchDirE → Except String (List (String × BenchDef))
  | [] => Except.ok []
  | d :: rest =>
      let info := orEmptyObj d.infoJson
      let template_data := orEmptyObj d.templateJson
      let template_keys : List String :=
        match template_data with
        | Json.obj tfs => tfs.map Prod.fst
        | _ => []
      match info with
      | Json.obj fs =>
          let bdef : BenchDef :=
            { name := jsonGetD fs "name" (Json.str d.name)
              description := jsonGetD fs "description" (Json.str "")
              tags := jsonGetD fs "tags" (Json.arr [])
              sort_by := jsonGetD fs "sort_by" Json.null
              sort_dir := jsonGetD fs "sort_dir" (Json.str "asc")
              data_file := jsonGetD fs "data_file" (Json.bool false)
              readme := if d.hasReadme then some ("benchmarks/" ++ d.name ++ "/README.md") else none
              template_keys := template_keys }
          (discover_benchmarks rest).map (fun bs => (d.name, bdef) :: bs)
      | _ => Except.error "AttributeError: info.get called on a non-dict"

/- ### ResultRecord and deduplication (source lines 96-106, 170-178, 253-279)

A record as assembled by `discover_results`: identity keys, the recency
bookkeeping computed by `parse_result_file`, and the extracted scalar
fields.  Unix timestamps are modelled by `Int` (see the header note). -/

structure Rec where
  code : String
  machine : String
  test : String
  file : String
  date_ts : Option Int
  mtime_ts : Option Int
  dateRaw : Option Val
  fields : List (String × Val)
deriving DecidableEq, Repr

/-- The `(code, machine)` deduplication key (source line 259). -/
def recKey (r : Rec) : String × String := (r.code, r.machine)

/-- Recency score of the record at discovery index `i` (source lines
260-264): `(date_ts ?? -1, mtime_ts ?? -1, i)`. -/
def scoreAt (i : Nat) (r : Rec) : Int × Int × Nat :=
  (r.date_ts.getD (-1), r.mtime_ts.getD (-1), i)

/-- Python `score >= prev` on the recency triples (lexicographic). -/
def scoreGe (a b : Int × Int × Nat) : Bool :=
  if a.1 < b.1 then false
  else if b.1 < a.1 then true
  else if a.2.1 < b.2.1 then false
  else if b.2.1 < a.2.1 then true
  else b.2.2 ≤ a.2.2

/-- Strict lexicographic order on recency triples (Python `score < prev`). -/
def scoreLtP (a b : Int × Int × Nat) : Prop :=
  a.1 < b.1 ∨ (a.1 = b.1 ∧ (a.2.1 < b.2.1 ∨ (a.2.1 = b.2.1 ∧ a.2.2 < b.2.2)))

instance (a b : Int × Int × Nat) : Decidable (scoreLtP a b) := by
  unfold scoreLtP; infer_instance

/-- Pointwise update of the dictionary modelled as a function. -/
def updD {β : Type} (m : String × String → Option β) (k : String × String) (v : β) :
    String × String → Option β :=
  fun k2 => if k2 = k then some v else m k2

/-- First dedup loop (source lines 255-268): one combined dictionary holds
`best_score_for_key` and `best_index_for_key`, which the source always
updates together. -/
def pass1 : List Rec → Nat → (String × String → Option ((Int × Int × Nat) × Nat)) →
    (String × String → Option ((Int × Int × Nat) × Nat))
  | [], _, best => best
  | r :: rest, i, best =>
      match best (recKey r) with
      | none => pass1 rest (i + 1) (updD best (recKey r) (scoreAt i r, i))
      | some (prev, _) =>
          if scoreGe (scoreAt i r) prev then
            pass1 rest (i + 1) (updD best (recKey r) (scoreAt i r, i))
          else pass1 rest (i + 1) best

/-- Second dedup loop (source lines 270-278): keep the records whose index
is the best index for their key, preserving discovery order. -/
def pass2 (best : String × String → Option ((Int × Int × Nat) × Nat)) :
    List Rec → Nat → List (String × String) → List Rec
  | [], _, _ => []
  | r :: rest, i, seen =>
      if recKey r ∈ seen then pass2 best rest (i + 1) seen
      else if (best (recKey r)).map Prod.snd = some i then
        r :: pass2 best rest (i + 1) (recKey r :: seen)
      else pass2 best rest (i + 1) seen

/-- Per-test deduplication (source lines 253-279). -/
def dedup (recs : List Rec) : List Rec :=
  pass2 (pass1 recs 0 (fun _ => none)) recs 0 []

theorem scoreGe_iff (a b : Int × Int × Nat) : scoreGe a b = true ↔ ¬ scoreLtP a b := by
  obtain ⟨a1, a2, a3⟩ := a
  obtain ⟨b1, b2, b3⟩ := b
  simp only [scoreGe, scoreLtP]
  split_ifs <;> simp_all <;> omega

theorem scoreGe_of_not_scoreGe {a b : Int × Int × Nat} (h : ¬ scoreGe a b = true) :
    scoreGe b a = true := by
  rw [scoreGe_iff] at h ⊢
  obtain ⟨a1, a2, a3⟩ := a
  obtain ⟨b1, b2, b3⟩ := b
  simp only [scoreLtP, not_not] at h ⊢
  intro hc
  rcases h with h | h <;> rcases hc with hc | hc <;> omega

theorem scoreGe_trans {a b c : Int × Int × Nat} (hab : scoreGe a b = true)
    (hbc : scoreGe b c = true) : scoreGe a c = true := by
  rw [scoreGe_iff] at hab hbc ⊢
  obtain ⟨a1, a2, a3⟩ := a
  obtain ⟨b1, b2, b3⟩ := b
  obtain ⟨c1, c2, c3⟩ := c
  simp only [scoreLtP] at hab hbc ⊢
  intro hc
  rcases hc with hc | hc <;> omega

theorem scoreLtP_of_scoreGe_ne {a b : Int × Int × Nat} (h : scoreGe a b = true)
    (hne : b ≠ a) : scoreLtP b a := by
  rw [scoreGe_iff] at h
  by_contra hc
  apply hne
  obtain ⟨a1, a2, a3⟩ := a
  obtain ⟨b1, b2, b3⟩ := b
  simp only [scoreLtP] at h hc
  have heq : b1 = a1 ∧ b2 = a2 ∧ b3 = a3 := by
    constructor
    · omega
    constructor
    · omega
    · omega
  simp [heq.1, heq.2.1, heq.2.2]

/-- The scores of the candidates for key `k` among a record list starting
at discovery index `i0`, in discovery order. -/
def candScores (k : String × String) : List Rec → Nat → List (Int × Int × Nat)
  | [], _ => []
  | r :: rest, i =>
      if recKey r = k then scoreAt i r :: candScores k rest (i + 1)
      else candScores k rest (i + 1)

/-- One step of the running-best computation of the first dedup loop. -/
def bestScore (acc : Option (Int × Int × Nat)) (s : Int × Int × Nat) :
    Option (Int × Int × Nat) :=
  match acc with
  | none => some s
  | some prev => if scoreGe s prev then some s else some prev

/-- The first dedup loop restricted to a single key. -/
def best1 (k : String × String) : List Rec → Nat → Option ((Int × Int × Nat) × Nat) →
    Option ((Int × Int × Nat) × Nat)
  | [], _, acc => acc
  | r :: rest, i, acc =>
      if recKey r = k then
        let s := scoreAt i r
        match acc with
        | none => best1 k rest (i + 1) (some (s, i))
        | some (prev, _) =>
            if scoreGe s prev then best1 k rest (i + 1) (some (s, i))
            else best1 k rest (i + 1) acc
      else best1 k rest (i + 1) acc

theorem updD_self {β : Type} (m : String × String → Option β) (k : String × String) (v : β) :
    updD m k v k = some v := by
  simp [updD]

theorem updD_ne {β : Type} (m : String × String → Option β) (k k2 : String × String) (v : β)
    (h : k2 ≠ k) : updD m k v k2 = m k2 := by
  simp [updD, h]

theorem pass1_eq_best1 (l : List Rec) : ∀ (i : Nat)
    (best : String × String → Option ((Int × Int × Nat) × Nat)) (k : String × String),
    pass1 l i best k = best1 k l i (best k) := by
  induction l with
  | nil => intro i best k; rfl
  | cons r rest ih =>
      intro i best k
      by_cases hk : recKey r = k
      · subst hk
        cases hbk : best (recKey r) with
        | none =>
            rw [show pass1 (r :: rest) i best = pass1 rest (i + 1)
                  (updD best (recKey r) (scoreAt i r, i)) by simp [pass1, hbk]]
            rw [ih, updD_self]
            simp [best1, hbk]
        | some p =>
            obtain ⟨prev, pj⟩ := p
            by_cases hge : scoreGe (scoreAt i r) prev
            · rw [show pass1 (r :: rest) i best = pass1 rest (i + 1)
                    (updD best (recKey r) (scoreAt i r, i)) by simp [pass1, hbk, hge]]
              rw [ih, updD_self]
              simp [best1, hbk, hge]
            · rw [show pass1 (r :: rest) i best = pass1 rest (i + 1) best by
                    simp [pass1, hbk, hge]]
              rw [ih, hbk]
              simp [best1, hbk, hge]
      · have hk2 : k ≠ recKey r := fun h => hk h.symm
        cases hbk : best (recKey r) with
        | none =>
            rw [show pass1 (r :: rest) i best = pass1 rest (i + 1)
                  (updD best (recKey r) (scoreAt i r, i)) by simp [pass1, hbk]]
            rw [ih, updD_ne _ _ _ _ hk2]
            simp [best1, hk]
        | some p =>
            obtain ⟨prev, pj⟩ := p
            by_cases hge : scoreGe (scoreAt i r) prev
            · rw [show pass1 (r :: rest) i best = pass1 rest (i + 1)
                    (updD best (recKey r) (scoreAt i r, i)) by simp [pass1, hbk, hge]]
              rw [ih, updD_ne _ _ _ _ hk2]
              simp [best1, hk]
            · rw [show pass1 (r :: rest) i best = pass1 rest (i + 1) best by
                    simp [pass1, hbk, hge]]
              rw [ih]
              simp [best1, hk]

theorem scoreGe_refl (a : Int × Int × Nat) : scoreGe a a = true := by
  rw [scoreGe_iff]
  obtain ⟨a1, a2, a3⟩ := a
  simp only [scoreLtP]
  omega

theorem best1_eq_fold (k : String × String) (l : List Rec) : ∀ (i : Nat)
    (acc : Option ((Int × Int × Nat) × Nat))
    (hinv : ∀ s j, acc = some (s, j) → j = s.2.2),
    best1 k l i acc =
      (List.foldl bestScore (acc.map Prod.fst) (candScores k l i)).map (fun s => (s, s.2.2)) := by
  induction l with
  | nil =>
      intro i acc hinv
      cases acc with
      | none => rfl
      | some p =>
          obtain ⟨s, j⟩ := p
          have := hinv s j rfl
          subst this
          rfl
  | cons r rest ih =>
      intro i acc hinv
      by_cases hk : recKey r = k
      · cases acc with
        | none =>
            simp only [best1, hk, if_pos, candScores]
            rw [ih (i + 1) (some (scoreAt i r, i)) (by intro s j h; cases h; rfl)]
            simp [bestScore, scoreAt]
        | some p =>
            obtain ⟨prev, pj⟩ := p
            have hpj : pj = prev.2.2 := hinv prev pj rfl
            subst hpj
            by_cases hge : scoreGe (scoreAt i r) prev
            · simp only [best1, hk, if_pos, hge, candScores]
              rw [ih (i + 1) (some (scoreAt i r, i)) (by intro s j h; cases h; rfl)]
              simp only [Option.map_some', List.foldl_cons, bestScore]
              rw [if_pos hge]
            · simp only [best1, hk, if_pos, hge, candScores]
              rw [ih (i + 1) (some (prev, prev.2.2)) (by intro s j h; cases h; rfl)]
              simp [bestScore, hge]
      · simp only [best1, hk, if_neg, candScores]
        exact ih (i + 1) acc hinv

theorem foldl_bestScore_some (ss : List (Int × Int × Nat)) :
    ∀ (acc : Option (Int × Int × Nat)), acc.isSome ∨ ss ≠ [] →
    (List.foldl bestScore acc ss).isSome := by
  induction ss with
  | nil =>
      intro acc h
      rcases h with h | h
      · exact h
      · exact absurd rfl h
  | cons s ss ih =>
      intro acc _
      apply ih
      left
      cases acc with
      | none => rfl
      | some prev =>
          simp only [bestScore]
          by_cases hge : scoreGe s prev <;> simp [hge]

theorem foldl_bestScore_mem (ss : List (Int × Int × Nat)) :
    ∀ (acc : Option (Int × Int × Nat)) (m : Int × Int × Nat),
    List.foldl bestScore acc ss = some m → acc = some m ∨ m ∈ ss := by
  induction ss with
  | nil => intro acc m h; exact Or.inl h
  | cons s ss ih =>
      intro acc m h
      rcases ih (bestScore acc s) m h with h2 | h2
      · cases acc with
        | none =>
            simp only [bestScore] at h2
            cases h2
            exact Or.inr (List.mem_cons_self _ _)
        | some prev =>
            simp only [bestScore] at h2
            by_cases hge : scoreGe s prev
            · rw [if_pos hge] at h2
              cases h2
              exact Or.inr (List.mem_cons_self _ _)
            · rw [if_neg hge] at h2
              exact Or.inl h2
      · exact Or.inr (List.mem_cons_of_mem _ h2)

theorem foldl_bestScore_ge (ss : List (Int × Int × Nat)) :
    ∀ (acc : Option (Int × Int × Nat)) (m : Int × Int × Nat),
    List.foldl bestScore acc ss = some m →
    (∀ p, acc = some p → scoreGe m p = true) ∧ (∀ x ∈ ss, scoreGe m x = true) := by
  induction ss with
  | nil =>
      intro acc m h
      refine ⟨fun p hp => ?_, fun x hx => absurd hx (List.not_mem_nil x)⟩
      rw [hp] at h
      cases h
      exact scoreGe_refl m
  | cons s ss ih =>
      intro acc m h
      obtain ⟨hacc, hss⟩ := ih (bestScore acc s) m h
      have hms : scoreGe m s = true := by
        cases acc with
        | none => exact hacc s rfl
        | some prev =>
            simp only [bestScore] at hacc
            by_cases hge : scoreGe s prev
            · exact hacc s (by rw [if_pos hge])
            · exact scoreGe_trans (hacc prev (by rw [if_neg hge]))
                (scoreGe_of_not_scoreGe hge)
      refine ⟨fun p hp => ?_, fun x hx => ?_⟩
      · subst hp
        simp only [bestScore] at hacc
        by_cases hge : scoreGe s p
        · exact scoreGe_trans (hacc s (by rw [if_pos hge])) hge
        · exact hacc p (by rw [if_neg hge])
      · rcases List.mem_cons.mp hx with rfl | hx2
        · exact hms
        · exact hss x hx2

theorem candScores_mem (k : String × String) (l : List Rec) : ∀ (i0 : Nat)
    (s : Int × Int × Nat),
    s ∈ candScores k l i0 ↔
      ∃ j, ∃ hj : j < l.length, recKey (l.get ⟨j, hj⟩) = k ∧
        s = scoreAt (i0 + j) (l.get ⟨j, hj⟩) := by
  induction l with
  | nil =>
      intro i0 s
      simp [candScores]
  | cons r rest ih =>
      intro i0 s
      by_cases hk : recKey r = k
      · simp only [candScores, hk, if_pos, List.mem_cons]
        constructor
        · rintro (rfl | hs)
          · exact ⟨0, by simp, by simpa using hk, by simp [Nat.add_zero]⟩
          · obtain ⟨j, hj, hkey, hsc⟩ := (ih (i0 + 1) s).mp hs
            exact ⟨j + 1, by simpa using Nat.succ_lt_succ hj,
              by simpa using hkey, by rw [hsc]; congr 1; omega⟩
        · rintro ⟨j, hj, hkey, hsc⟩
          cases j with
          | zero => left; rw [hsc]; simp
          | succ j2 =>
              right
              refine (ih (i0 + 1) s).mpr
                ⟨j2, by simp only [List.length_cons] at hj; omega, ?_, ?_⟩
              · simpa using hkey
              · rw [hsc]
                simp only [List.get_cons_succ]
                congr 1
                omega
      · rw [show candScores k (r :: rest) i0 = candScores k rest (i0 + 1) by
            simp only [candScores]; rw [if_neg hk]]
        rw [ih (i0 + 1) s]
        constructor
        · rintro ⟨j, hj, hkey, hsc⟩
          exact ⟨j + 1, by simpa using Nat.succ_lt_succ hj,
            by simpa using hkey, by rw [hsc]; congr 1; omega⟩
        · rintro ⟨j, hj, hkey, hsc⟩
          cases j with
          | zero =>
              exact absurd (by simpa using hkey) hk
          | succ j2 =>
              refine ⟨j2, by simp only [List.length_cons] at hj; omega,
                by simpa using hkey, ?_⟩
              rw [hsc]
              simp only [List.get_cons_succ]
              congr 1
              omega

theorem pass2_seen (best : String × String → Option ((Int × Int × Nat) × Nat))
    (k : String × String) (l : List Rec) : ∀ (i : Nat) (seen : List (String × String))
    (hs : k ∈ seen),
    (pass2 best l i seen).filter (fun r => decide (recKey r = k)) = [] := by
  induction l with
  | nil => intro i seen hs; rfl
  | cons r rest ih =>
      intro i seen hs
      by_cases hmem : recKey r ∈ seen
      · simp only [pass2, hmem, if_pos]
        exact ih (i + 1) seen hs
      · have hne : recKey r ≠ k := fun h => hmem (h ▸ hs)
        by_cases hbest : (best (recKey r)).map Prod.snd = some i
        · simp only [pass2, hmem, if_neg, hbest, if_pos, not_false_eq_true]
          rw [List.filter_cons_of_neg (by simp [hne])]
          exact ih (i + 1) (recKey r :: seen) (List.mem_cons_of_mem _ hs)
        · simp only [pass2, hmem, hbest, if_neg, not_false_eq_true]
          exact ih (i + 1) seen hs

theorem pass2_filter (best : String × String → Option ((Int × Int × Nat) × Nat))
    (k : String × String) (j : Nat)
    (hb : (best k).map Prod.snd = some j) (l : List Rec) : ∀ (i : Nat)
    (seen : List (String × String)) (hseen : k ∉ seen) (hij : i ≤ j)
    (hj : j - i < l.length) (hkey : recKey (l.get ⟨j - i, hj⟩) = k),
    (pass2 best l i seen).filter (fun r => decide (recKey r = k)) = [l.get ⟨j - i, hj⟩] := by
  induction l with
  | nil => intro i seen hseen hij hj hkey; exact absurd hj (by simp)
  | cons r rest ih =>
      intro i seen hseen hij hj hkey
      by_cases hk : recKey r = k
      · have hmem : ¬ recKey r ∈ seen := fun h => hseen (hk ▸ h)
        by_cases hji : j = i
        · subst hji
          have h0 : j - j = 0 := by omega
          have hbest : (best (recKey r)).map Prod.snd = some j := by rw [hk]; exact hb
          simp only [pass2, hmem, if_neg, hbest, if_pos, not_false_eq_true]
          rw [List.filter_cons_of_pos (by simp [hk])]
          rw [pass2_seen best k rest (j + 1) (recKey r :: seen)
                (by rw [hk]; exact List.mem_cons_self _ _)]
          have hidx : (⟨j - j, hj⟩ : Fin (r :: rest).length) = ⟨0, by simp⟩ := by
            apply Fin.ext; simp [h0]
          rw [hidx]
          rfl
        · have hlt : i < j := by omega
          have hj2 : j - (i + 1) < rest.length := by
            simp only [List.length_cons] at hj
            omega
          have hidx : (⟨j - i, hj⟩ : Fin (r :: rest).length) =
              ⟨(j - (i + 1)) + 1, by simp only [List.length_cons]; omega⟩ := by
            apply Fin.ext; simp only []; omega
          have hget : (r :: rest).get ⟨j - i, hj⟩ = rest.get ⟨j - (i + 1), hj2⟩ := by
            rw [hidx]; rfl
          have hbest : ¬ (best (recKey r)).map Prod.snd = some i := by
            rw [hk, hb]
            intro h
            exact hji (Option.some.inj h)
          simp only [pass2, hmem, hbest, if_neg, not_false_eq_true]
          rw [hget] at hkey ⊢
          exact ih (i + 1) seen hseen (by omega) hj2 hkey
      · have hlt : i < j := by
          rcases Nat.lt_or_ge i j with h | h
          · exact h
          · exfalso
            have h0 : j - i = 0 := by omega
            have hidx : (⟨j - i, hj⟩ : Fin (r :: rest).length) = ⟨0, by simp⟩ := by
              apply Fin.ext; simp [h0]
            rw [hidx] at hkey
            exact hk hkey
        have hj2 : j - (i + 1) < rest.length := by
          simp only [List.length_cons] at hj
          omega
        have hidx : (⟨j - i, hj⟩ : Fin (r :: rest).length) =
            ⟨(j - (i + 1)) + 1, by simp only [List.length_cons]; omega⟩ := by
          apply Fin.ext; simp only []; omega
        have hget : (r :: rest).get ⟨j - i, hj⟩ = rest.get ⟨j - (i + 1), hj2⟩ := by
          rw [hidx]; rfl
        rw [hget] at hkey ⊢
        by_cases hmem : recKey r ∈ seen
        · simp only [pass2, hmem, if_pos]
          exact ih (i + 1) seen hseen (by omega) hj2 hkey
        · by_cases hbest : (best (recKey r)).map Prod.snd = some i
          · simp only [pass2, hmem, if_neg, hbest, if_pos, not_false_eq_true]
            rw [List.filter_cons_of_neg (by simp [hk])]
            refine ih (i + 1) (recKey r :: seen) ?_ (by omega) hj2 hkey
            intro hin
            rcases List.mem_cons.mp hin with h | h
            · exact hk h.symm
            · exact hseen h
          · simp only [pass2, hmem, hbest, if_neg, not_false_eq_true]
            exact ih (i + 1) seen hseen (by omega) hj2 hkey

theorem scoreLtP_asymm {a b : Int × Int × Nat} (h1 : scoreLtP a b) (h2 : scoreLtP b a) :
    False := by
  obtain ⟨a1, a2, a3⟩ := a
  obtain ⟨b1, b2, b3⟩ := b
  simp only [scoreLtP] at h1 h2
  omega

/-- C1: within a test, for every (code, machine) key with at least one
candidate, deduplication keeps exactly one record: the one whose recency
triple `(date_ts ?? -1, mtime_ts ?? -1, discovery index)` is
lexicographically greatest; in particular, when two candidates agree on
both timestamp components the later-discovered one is kept. -/
theorem dedup_keeps_lex_greatest (recs : List Rec) (k : String × String)
    (hk : ∃ r ∈ recs, recKey r = k) :
    ∃ j, ∃ hj : j < recs.length, recKey (recs.get ⟨j, hj⟩) = k ∧
      (dedup recs).filter (fun r => decide (recKey r = k)) = [recs.get ⟨j, hj⟩] ∧
      (∀ j2, ∀ hj2 : j2 < recs.length, recKey (recs.get ⟨j2, hj2⟩) = k → j2 ≠ j →
        scoreLtP (scoreAt j2 (recs.get ⟨j2, hj2⟩)) (scoreAt j (recs.get ⟨j, hj⟩))) ∧
      (∀ j1 j2, ∀ h1 : j1 < recs.length, ∀ h2 : j2 < recs.length, j1 < j2 →
        recKey (recs.get ⟨j1, h1⟩) = k → recKey (recs.get ⟨j2, h2⟩) = k →
        (recs.get ⟨j1, h1⟩).date_ts = (recs.get ⟨j2, h2⟩).date_ts →
        (recs.get ⟨j1, h1⟩).mtime_ts = (recs.get ⟨j2, h2⟩).mtime_ts →
        j ≠ j1) := by
  obtain ⟨r, hr, hrk⟩ := hk
  obtain ⟨⟨j0, hj0⟩, hget⟩ := List.mem_iff_get.mp hr
  have hcand : scoreAt j0 (recs.get ⟨j0, hj0⟩) ∈ candScores k recs 0 :=
    (candScores_mem k recs 0 _).mpr ⟨j0, hj0, by rw [hget]; exact hrk, by simp⟩
  have hne : candScores k recs 0 ≠ [] := by
    intro h
    rw [h] at hcand
    exact absurd hcand (List.not_mem_nil _)
  have hsome := foldl_bestScore_some (candScores k recs 0) none (Or.inr hne)
  obtain ⟨m, hm⟩ := Option.isSome_iff_exists.mp hsome
  have hbest : pass1 recs 0 (fun _ => none) k = some (m, m.2.2) := by
    rw [pass1_eq_best1, best1_eq_fold k recs 0 none (by intro s j h; cases h)]
    simp [hm]
  have hmmem : m ∈ candScores k recs 0 := by
    rcases foldl_bestScore_mem _ none m hm with h | h
    · simp at h
    · exact h
  obtain ⟨j, hj, hkey, hmeq⟩ := (candScores_mem k recs 0 m).mp hmmem
  have hjm : m.2.2 = j := by rw [hmeq]; simp [scoreAt]
  have hmval : m = scoreAt j (recs.get ⟨j, hj⟩) := by rw [hmeq]; congr 1; omega
  have hstr : ∀ j2, ∀ hj2 : j2 < recs.length, recKey (recs.get ⟨j2, hj2⟩) = k → j2 ≠ j →
      scoreLtP (scoreAt j2 (recs.get ⟨j2, hj2⟩)) (scoreAt j (recs.get ⟨j, hj⟩)) := by
    intro j2 hj2 hkey2 hne2
    have hc2 : scoreAt j2 (recs.get ⟨j2, hj2⟩) ∈ candScores k recs 0 :=
      (candScores_mem k recs 0 _).mpr ⟨j2, hj2, hkey2, by simp⟩
    have hge := (foldl_bestScore_ge _ none m hm).2 _ hc2
    have hnem : scoreAt j2 (recs.get ⟨j2, hj2⟩) ≠ m := by
      intro h
      apply hne2
      have h2 := congrArg (fun s : Int × Int × Nat => s.2.2) h
      simpa [scoreAt, hjm] using h2
    have hlt := scoreLtP_of_scoreGe_ne hge hnem
    rw [hmval] at hlt
    exact hlt
  refine ⟨j, hj, hkey, ?_, hstr, ?_⟩
  · have hb2 : ((pass1 recs 0 (fun _ => none)) k).map Prod.snd = some j := by
      rw [hbest]
      simp [hjm]
    exact pass2_filter (pass1 recs 0 (fun _ => none)) k j hb2 recs 0 []
      (by simp) (by omega) hj hkey
  · intro j1 j2 h1 h2 hlt hk1 hk2 hdate hmtime hjj1
    have hs2 := hstr j2 h2 hk2 (by omega)
    have hgj : recs.get ⟨j, hj⟩ = recs.get ⟨j1, h1⟩ := by
      congr 1
      exact Fin.ext hjj1
    have hs1 : scoreLtP (scoreAt j (recs.get ⟨j, hj⟩)) (scoreAt j2 (recs.get ⟨j2, h2⟩)) := by
      rw [hgj]
      simp only [scoreLtP, scoreAt, hdate, hmtime]
      exact Or.inr ⟨trivial, Or.inr ⟨trivial, by omega⟩⟩
    exact scoreLtP_asymm hs1 hs2

/-- Concrete records used by the dedup witnesses: same (code, machine) key,
the first dated, the second undated but with a larger mtime. -/
def recW1 : Rec :=
  { code := "sim-a", machine := "node-1", test := "orszag-tang", file := "f1"
    date_ts := some 1704067200, mtime_ts := some 10, dateRaw := some (Val.str "2024-01-01T00:00:00Z")
    fields := [("result", Val.num 12)] }

def recW2 : Rec :=
  { code := "sim-a", machine := "node-1", test := "orszag-tang", file := "f2"
    date_ts := none, mtime_ts := some 1704067300, dateRaw := none
    fields := [("result", Val.num 13)] }

/-- Witness for C1 at a concrete two-candidate input. -/
theorem dedup_keeps_lex_greatest_witness :
    (∃ r ∈ [recW1, recW2], recKey r = ("sim-a", "node-1")) ∧
    (∃ j, ∃ hj : j < ([recW1, recW2] : List Rec).length,
      recKey (([recW1, recW2] : List Rec).get ⟨j, hj⟩) = ("sim-a", "node-1") ∧
      (dedup [recW1, recW2]).filter
        (fun r => decide (recKey r = ("sim-a", "node-1"))) =
        [([recW1, recW2] : List Rec).get ⟨j, hj⟩] ∧
      (∀ j2, ∀ hj2 : j2 < ([recW1, recW2] : List Rec).length,
        recKey (([recW1, recW2] : List Rec).get ⟨j2, hj2⟩) = ("sim-a", "node-1") → j2 ≠ j →
        scoreLtP (scoreAt j2 (([recW1, recW2] : List Rec).get ⟨j2, hj2⟩))
          (scoreAt j (([recW1, recW2] : List Rec).get ⟨j, hj⟩))) ∧
      (∀ j1 j2, ∀ h1 : j1 < ([recW1, recW2] : List Rec).length,
        ∀ h2 : j2 < ([recW1, recW2] : List Rec).length, j1 < j2 →
        recKey (([recW1, recW2] : List Rec).get ⟨j1, h1⟩) = ("sim-a", "node-1") →
        recKey (([recW1, recW2] : List Rec).get ⟨j2, h2⟩) = ("sim-a", "node-1") →
        (([recW1, recW2] : List Rec).get ⟨j1, h1⟩).date_ts =
          (([recW1, recW2] : List Rec).get ⟨j2, h2⟩).date_ts →
        (([recW1, recW2] : List Rec).get ⟨j1, h1⟩).mtime_ts =
          (([recW1, recW2] : List Rec).get ⟨j2, h2⟩).mtime_ts →
        j ≠ j1)) :=
  ⟨⟨recW1, by simp [recW1, recKey]⟩,
   dedup_keeps_lex_greatest [recW1, recW2] ("sim-a", "node-1")
     ⟨recW1, by simp [recW1, recKey]⟩⟩

/-- A record whose parsed date lies before the Unix epoch
(`1969-12-31T23:59:58Z`, timestamp `-2`). -/
def recC3a : Rec :=
  { code := "c1", machine := "m1", test := "t", file := "a"
    date_ts := some (-2), mtime_ts := some 0, dateRaw := some (Val.str "1969-12-31T23:59:58Z")
    fields := [] }

/-- A record with no parsed date but a recent mtime, same key as `recC3a`. -/
def recC3b : Rec :=
  { code := "c1", machine := "m1", test := "t", file := "b"
    date_ts := none, mtime_ts := some 100, dateRaw := none
    fields := [] }

/-- C3 counterexample: with a pre-epoch date (`date_ts = -2 < -1`) the dated
record scores *below* the undated one and loses deduplication, so a record
with `date_ts` set does not always beat a record without one. -/
theorem dated_record_can_lose :
    dedup [recC3a, recC3b] = [recC3b] ∧
    ¬ scoreLtP (scoreAt 1 recC3b) (scoreAt 0 recC3a) := by
  constructor
  · rfl
  · decide

/-- C3 amended: a record with a parsed date strictly beats a record without
one regardless of either mtime, *provided* the date timestamp exceeds the
`-1` sentinel (true for every date from 1970 on). -/
theorem dated_record_beats_undated (r1 r2 : Rec) (i1 i2 : Nat) (d : Int)
    (hd : r1.date_ts = some d) (hgt : -1 < d) (h2 : r2.date_ts = none) :
    scoreLtP (scoreAt i2 r2) (scoreAt i1 r1) := by
  simp only [scoreAt, hd, h2, Option.getD_some, Option.getD_none, scoreLtP]
  left
  exact hgt

/-- Witness for the amended C3 at a concrete input. -/
theorem dated_record_beats_undated_witness :
    recW1.date_ts = some 1704067200 ∧ (-1 : Int) < 1704067200 ∧ recW2.date_ts = none ∧
    scoreLtP (scoreAt 7 recW2) (scoreAt 0 recW1) :=
  ⟨rfl, by decide,
   rfl, dated_record_beats_undated recW1 recW2 0 7 1704067200 rfl (by decide) rfl⟩

/-- C4: evaluation of `discover_benchmarks` at the inputs that decide the
claim.  A *missing or unparseable* `info.json`/`template.json` indeed
yields exactly the defaults, but `info.json` holding the valid JSON value
`true` (truthy, not a dict) survives `read_json_file(...) or {}` and then
crashes at `info.get`, aborting the run — contradicting the claim that no
input in this stage can abort. -/
theorem discover_benchmarks_crash_on_truthy_nonobject :
    discover_benchmarks [⟨"foo", some (Json.bool true), none, false⟩] =
      Except.error "AttributeError: info.get called on a non-dict" ∧
    discover_benchmarks [⟨"foo", none, none, false⟩] =
      Except.ok [("foo", defaultBenchDef "foo" false)] ∧
    discover_benchmarks [⟨"bar", none, some (Json.num 5), true⟩] =
      Except.ok [("bar", defaultBenchDef "bar" true)] :=
  ⟨rfl, rfl, rfl⟩

/- ### ResultCollector: `discover_results` (source lines 109-179)

The filesystem below `results/` is modelled by nested lists mirroring
`code / machine / test / commit`.  For each commit directory the model
records whether `result.json` exists and, if so, its parse result.  The
embedding covers the parts of `parse_result_file` that determine which
field keys are extracted (source lines 60-63); the date / mtime / plot
bookkeeping of lines 66-106 and 163-177 populates other record fields and
has no influence on key resolution. -/

structure CommitE where
  name : String
  hasResult : Bool
  resultJson : Option Json

structure TestE where
  name : String
  commits : List CommitE

structure MachineE where
  name : String
  tests : List TestE

structure CodeE where
  name : String
  machines : List MachineE

/-- A collected record, reduced to its identity, the template-key list that
was used to extract its fields, and the extracted fields themselves. -/
structure RecordE where
  code : String
  machine : String
  test : String
  usedKeys : List String
  extracted : List (String × Json)

/-- The bookkeeping keys excluded by the inference fallback at source
lines 139-150. -/
def bookkeepingKeys : List String := ["code", "machine", "test", "file", "date_obj"]

/-- Fallback inference (source lines 130-151): scan commit directories for
the first one whose `result.json` *exists* and stop there — whether or not
it parses; keys are taken only when it parses to a dict. -/
def inferKeys : List CommitE → List String
  | [] => []
  | c :: rest =>
      if c.hasResult then
        match c.resultJson with
        | some (Json.obj fs) =>
            (fs.map Prod.fst).filter (fun k2 => !(bookkeepingKeys.contains k2))
        | _ => []
      else inferKeys rest

/-- Template-key resolution for one `test` directory (source lines
126-151): the benchmark's declared keys, or the inference fallback when
they are absent or empty.  Note this runs once per `(code, machine, test)`
directory, not once per benchmark. -/
def templateKeysFor (benchmarks : List (String × BenchDef)) (testName : String)
    (commits : List CommitE) : List String :=
  match benchmarks.lookup testName with
  | some bd => if bd.template_keys.isEmpty then inferKeys commits else bd.template_keys
  | none => inferKeys commits

/-- Records produced from one `test` directory (source lines 152-178 with
`parse_result_file`, lines 55-63): commits whose `result.json` exists and
parses to a dict each yield a record whose fields are `data.get(key)` for
each resolved template key. -/
def recordsOfTest (code machine : String) (t : TestE) (tk : List String) : List RecordE :=
  t.commits.filterMap fun c =>
    if c.hasResult then
      match c.resultJson with
      | some (Json.obj fs) =>
          some ⟨code, machine, t.name, tk, tk.map (fun k2 => (k2, jsonGet fs k2))⟩
      | _ => none
    else none

/-- `discover_results` (source lines 109-179), modulo the plot / recency
bookkeeping noted above. -/
def discover_results (benchmarks : List (String × BenchDef)) (codes : List CodeE) :
    List RecordE :=
  codes.flatMap fun cd =>
    cd.machines.flatMap fun md =>
      md.tests.flatMap fun td =>
        recordsOfTest cd.name md.name td (templateKeysFor benchmarks td.name td.commits)

/-- Registry used by the C5 counterexample: benchmark `t` declares no
template keys. -/
def bmC5 : List (String × BenchDef) := [("t", defaultBenchDef "t" false)]

/-- Result tree used by the C5 counterexample: the same test `t` under two
machines of one code, with result files having different keys. -/
def treeC5 : List CodeE :=
  [⟨"c",
    [⟨"m1", [⟨"t", [⟨"x", true, some (Json.obj [("a", Json.num 1)])⟩]⟩]⟩,
     ⟨"m2", [⟨"t", [⟨"y", true, some (Json.obj [("b", Json.num 2)])⟩]⟩]⟩]⟩]

/-- C5 counterexample: with no declared template, key inference runs per
`(code, machine, test)` directory, so two records of the *same* benchmark
are extracted with *different* key lists in one run. -/
theorem templateKeys_not_resolved_once_per_benchmark :
    ¬ (∀ r1 ∈ discover_results bmC5 treeC5, ∀ r2 ∈ discover_results bmC5 treeC5,
        r1.test = r2.test → r1.usedKeys = r2.usedKeys) := by
  decide

/-- C5 amended: when the benchmark *declares* a non-empty template, every
record of that test in the whole run is extracted with exactly the declared
key list, in declared order. -/
theorem declared_template_keys_used (benchmarks : List (String × BenchDef))
    (codes : List CodeE) (t : String) (bd : BenchDef)
    (hb : benchmarks.lookup t = some bd) (hne : bd.template_keys ≠ []) :
    ∀ r ∈ discover_results benchmarks codes, r.test = t →
      r.usedKeys = bd.template_keys ∧ r.extracted.map Prod.fst = bd.template_keys := by
  intro r hr hrt
  simp only [discover_results, List.mem_flatMap] at hr
  obtain ⟨cd, _, md, _, td, _, hrec⟩ := hr
  simp only [recordsOfTest, List.mem_filterMap] at hrec
  obtain ⟨c, _, hc⟩ := hrec
  by_cases hhas : c.hasResult
  · rw [if_pos hhas] at hc
    cases hj : c.resultJson with
    | none => rw [hj] at hc; cases hc
    | some v =>
        cases v with
        | obj fs =>
            rw [hj] at hc
            cases hc
            have htd : td.name = t := hrt
            have htk : templateKeysFor benchmarks td.name td.commits = bd.template_keys := by
              rw [htd]
              simp only [templateKeysFor, hb]
              rw [if_neg (by simpa using hne)]
            refine ⟨htk, ?_⟩
            rw [htk]
            rw [List.map_map]
            have hcomp : (Prod.fst ∘ fun k2 : String => (k2, jsonGet fs k2)) = id := rfl
            rw [hcomp, List.map_id]
        | null => rw [hj] at hc; cases hc
        | bool b => rw [hj] at hc; cases hc
        | num n => rw [hj] at hc; cases hc
        | str s => rw [hj] at hc; cases hc
        | arr xs => rw [hj] at hc; cases hc
  · rw [if_neg hhas] at hc
    cases hc

/- ### ResultReducer: the initial sort (source lines 535-556)

`_val_for_sort` maps a record to the Python tuple `(1, 0, "")` for a
missing value, `(0, 0, float(v))` for a numerically coercible value, and
`(0, 1, str(v).lower())` otherwise; `list.sort` then orders by that tuple,
with `reverse=True` when `sortDir == "desc"`.  Third components of mixed
type are never compared because the second component already differs.
Numeric string literals are modelled as optionally signed integer
literals. -/

def parseDigitsAux : List Char → Nat → Option Nat
  | [], acc => some acc
  | c :: cs, acc =>
      if c.isDigit then parseDigitsAux cs (acc * 10 + (c.toNat - 48)) else none

/-- Python `float(s)` on a string, restricted to integer literals with an
optional sign (the only numeric strings the verified properties exercise). -/
def parseNumStr (s : String) : Option Int :=
  match s.data with
  | [] => none
  | c :: cs =>
      if c = '-' then
        match cs with
        | [] => none
        | _ => (parseDigitsAux cs 0).map (fun n => -(n : Int))
      else if c = '+' then
        match cs with
        | [] => none
        | _ => (parseDigitsAux cs 0).map (fun n => (n : Int))
      else (parseDigitsAux (c :: cs) 0).map (fun n => (n : Int))

/-- Python `float(v)` inside the `try` of `_val_for_sort` (source lines
550-551): numbers coerce to themselves, booleans to 0/1, numeric strings
parse; anything else raises and falls to the string branch.  The `null`
case is unreachable (the `v is None` test comes first). -/
def tryFloat : Val → Option Int
  | .num n => some n
  | .bool b => some (if b then 1 else 0)
  | .str s => parseNumStr s
  | .null => none

/-- Third sort-key component: a float or a lower-cased string.  The cross
constructor comparisons are arbitrary (they make the order total) and are
never exercised: the second key component already separates the branches. -/
inductive NS where
  | n (x : Int) : NS
  | s (t : List Char) : NS
deriving DecidableEq, Repr

/-- Python string `<=`: code-point lexicographic order. -/
def leL : List Char → List Char → Bool
  | [], _ => true
  | _ :: _, [] => false
  | a :: as, b :: bs =>
      if a.toNat < b.toNat then true
      else if b.toNat < a.toNat then false
      else leL as bs

theorem leL_cons_iff (a b : Char) (as bs : List Char) :
    leL (a :: as) (b :: bs) = true ↔
      a.toNat < b.toNat ∨ (a.toNat = b.toNat ∧ leL as bs = true) := by
  simp only [leL]
  by_cases h1 : a.toNat < b.toNat
  · simp [h1]
  · by_cases h2 : b.toNat < a.toNat
    · simp [h1, h2]
      omega
    · have h3 : a.toNat = b.toNat := by omega
      simp [h1, h2, h3]

theorem leL_trans : ∀ (x y z : List Char),
    leL x y = true → leL y z = true → leL x z = true := by
  intro x
  induction x with
  | nil => intro y z h1 h2; rfl
  | cons a as ih =>
      intro y z h1 h2
      cases y with
      | nil => exact absurd h1 (by simp [leL])
      | cons b bs =>
          cases z with
          | nil => exact absurd h2 (by simp [leL])
          | cons c cs =>
              rw [leL_cons_iff] at h1 h2 ⊢
              rcases h1 with h1 | ⟨h1e, h1t⟩
              · rcases h2 with h2 | ⟨h2e, _⟩
                · exact Or.inl (by omega)
                · exact Or.inl (by omega)
              · rcases h2 with h2 | ⟨h2e, h2t⟩
                · exact Or.inl (by omega)
                · exact Or.inr ⟨by omega, ih bs cs h1t h2t⟩

theorem leL_total : ∀ (x y : List Char), leL x y = true ∨ leL y x = true := by
  intro x
  induction x with
  | nil => intro y; exact Or.inl rfl
  | cons a as ih =>
      intro y
      cases y with
      | nil => exact Or.inr rfl
      | cons b bs =>
          rw [leL_cons_iff, leL_cons_iff]
          by_cases h1 : a.toNat < b.toNat
          · exact Or.inl (Or.inl h1)
          · by_cases h2 : b.toNat < a.toNat
            · exact Or.inr (Or.inl h2)
            · rcases ih bs with h | h
              · exact Or.inl (Or.inr ⟨by omega, h⟩)
              · exact Or.inr (Or.inr ⟨by omega, h⟩)

def nsLe : NS → NS → Bool
  | .n a, .n b => decide (a ≤ b)
  | .n _, .s _ => true
  | .s _, .n _ => false
  | .s a, .s b => leL a b

theorem nsLe_trans {a b c : NS} (h1 : nsLe a b = true) (h2 : nsLe b c = true) :
    nsLe a c = true := by
  cases a with
  | n x =>
      cases c with
      | n z =>
          cases b with
          | n y =>
              simp only [nsLe, decide_eq_true_eq] at h1 h2 ⊢
              omega
          | s t => exact absurd h2 (by simp [nsLe])
      | s t => rfl
  | s t =>
      cases b with
      | n y => exact absurd h1 (by simp [nsLe])
      | s u =>
          cases c with
          | n z => exact absurd h2 (by simp [nsLe])
          | s w => exact leL_trans t u w h1 h2

theorem nsLe_total (a b : NS) : nsLe a b = true ∨ nsLe b a = true := by
  cases a with
  | n x =>
      cases b with
      | n y =>
          simp only [nsLe, decide_eq_true_eq]
          omega
      | s t => exact Or.inl rfl
  | s t =>
      cases b with
      | n y => exact Or.inr rfl
      | s u => exact leL_total t u

/-- Python `<=` on the `_val_for_sort` tuples (lexicographic). -/
def keyLe (a b : Nat × Nat × NS) : Bool :=
  if a.1 < b.1 then true
  else if b.1 < a.1 then false
  else if a.2.1 < b.2.1 then true
  else if b.2.1 < a.2.1 then false
  else nsLe a.2.2 b.2.2

theorem keyLe_iff (a b : Nat × Nat × NS) :
    keyLe a b = true ↔
      a.1 < b.1 ∨ (a.1 = b.1 ∧ (a.2.1 < b.2.1 ∨ (a.2.1 = b.2.1 ∧ nsLe a.2.2 b.2.2 = true))) := by
  obtain ⟨a1, a2, a3⟩ := a
  obtain ⟨b1, b2, b3⟩ := b
  simp only [keyLe]
  by_cases h1 : a1 < b1
  · simp [h1]
  · by_cases h2 : b1 < a1
    · simp [h1, h2]
      omega
    · have he1 : a1 = b1 := by omega
      by_cases h3 : a2 < b2
      · simp [h1, h2, h3, he1]
      · by_cases h4 : b2 < a2
        · simp [h1, h2, h3, h4]
          omega
        · have he2 : a2 = b2 := by omega
          simp [h1, h2, h3, h4, he1, he2]

theorem keyLe_trans {a b c : Nat × Nat × NS} (h1 : keyLe a b = true)
    (h2 : keyLe b c = true) : keyLe a c = true := by
  rw [keyLe_iff] at h1 h2 ⊢
  rcases h1 with h1 | ⟨h1e, h1r⟩
  · rcases h2 with h2 | ⟨h2e, _⟩
    · exact Or.inl (by omega)
    · exact Or.inl (by omega)
  · rcases h2 with h2 | ⟨h2e, h2r⟩
    · exact Or.inl (by omega)
    · refine Or.inr ⟨by omega, ?_⟩
      rcases h1r with h1r | ⟨h1re, h1rt⟩
      · rcases h2r with h2r | ⟨h2re, _⟩
        · exact Or.inl (by omega)
        · exact Or.inl (by omega)
      · rcases h2r with h2r | ⟨h2re, h2rt⟩
        · exact Or.inl (by omega)
        · exact Or.inr ⟨by omega, nsLe_trans h1rt h2rt⟩

theorem keyLe_total (a b : Nat × Nat × NS) : keyLe a b = true ∨ keyLe b a = true := by
  rw [keyLe_iff, keyLe_iff]
  by_cases h1 : a.1 < b.1
  · exact Or.inl (Or.inl h1)
  · by_cases h2 : b.1 < a.1
    · exact Or.inr (Or.inl h2)
    · by_cases h3 : a.2.1 < b.2.1
      · exact Or.inl (Or.inr ⟨by omega, Or.inl h3⟩)
      · by_cases h4 : b.2.1 < a.2.1
        · exact Or.inr (Or.inr ⟨by omega, Or.inl h4⟩)
        · rcases nsLe_total a.2.2 b.2.2 with h | h
          · exact Or.inl (Or.inr ⟨by omega, Or.inr ⟨by omega, h⟩⟩)
          · exact Or.inr (Or.inr ⟨by omega, Or.inr ⟨by omega, h⟩⟩)

theorem keyLe_fst_le {a b : Nat × Nat × NS} (h : keyLe a b = true) : a.1 ≤ b.1 := by
  rw [keyLe_iff] at h
  rcases h with h | ⟨he, _⟩ <;> omega

/-- Python `r.get(key)` on the assembled record dictionary (source lines
96-106 and 170-177): identity and bookkeeping keys first, then the
extracted fields.  The embedding assumes the template does not redeclare
the reserved identity keys (a template shadowing `code` / `machine` /
`test` would overwrite them in the Python dict); none of the verified
properties involve such shadowing. -/
def rget (r : Rec) (k2 : String) : Val :=
  if k2 = "code" then Val.str r.code
  else if k2 = "machine" then Val.str r.machine
  else if k2 = "test" then Val.str r.test
  else if k2 = "file" then Val.str r.file
  else if k2 = "date_ts" then
    match r.date_ts with
    | some t => Val.num t
    | none => Val.null
  else if k2 = "mtime_ts" then
    match r.mtime_ts with
    | some t => Val.num t
    | none => Val.null
  else if k2 = "date" then
    match r.dateRaw with
    | some v2 => v2
    | none => Val.null
  else
    match r.fields.lookup k2 with
    | some v2 => v2
    | none => Val.null

/-- The value `_val_for_sort` starts from (source lines 540-546): the
numeric date timestamp (falling back to the raw date) for `sortBy = date`,
otherwise the named field. -/
def sortValOf (sort_by : String) (r : Rec) : Val :=
  if sort_by = "date" then
    match r.date_ts with
    | some t => Val.num t
    | none =>
        match r.dateRaw with
        | some v2 => v2
        | none => Val.null
  else rget r sort_by

/-- The tuple `_val_for_sort` returns for a value (source lines 547-553). -/
def keyOfVal (v : Val) : Nat × Nat × NS :=
  if v = Val.null then (1, 0, NS.s [])
  else
    match tryFloat v with
    | some f => (0, 0, NS.n f)
    | none => (0, 1, NS.s ((strOfVal v).data.map Char.toLower))

/-- `_val_for_sort` (source lines 539-553). -/
def valForSort (sort_by : String) (r : Rec) : Nat × Nat × NS :=
  keyOfVal (sortValOf sort_by r)

/-- Whether `_val_for_sort` hits its missing/null branch. -/
def sortValMissing (sort_by : String) (r : Rec) : Bool :=
  sortValOf sort_by r = Val.null

/-- Ascending comparison of records by sort key. -/
def ascRel (sort_by : String) (a b : Rec) : Prop :=
  keyLe (valForSort sort_by a) (valForSort sort_by b) = true

/-- Descending comparison of records by sort key (Python `reverse=True`
reverses the comparison of the *whole* tuple). -/
def descRel (sort_by : String) (a b : Rec) : Prop :=
  keyLe (valForSort sort_by b) (valForSort sort_by a) = true

instance (sort_by : String) : DecidableRel (ascRel sort_by) := by
  unfold ascRel
  infer_instance

instance (sort_by : String) : DecidableRel (descRel sort_by) := by
  unfold descRel
  infer_instance

instance (sort_by : String) : IsTotal Rec (ascRel sort_by) :=
  ⟨fun a b => keyLe_total (valForSort sort_by a) (valForSort sort_by b)⟩

instance (sort_by : String) : IsTrans Rec (ascRel sort_by) :=
  ⟨fun _ _ _ h1 h2 => keyLe_trans h1 h2⟩

instance (sort_by : String) : IsTotal Rec (descRel sort_by) :=
  ⟨fun a b => by
    unfold descRel
    exact (keyLe_total (valForSort sort_by a) (valForSort sort_by b)).symm⟩

instance (sort_by : String) : IsTrans Rec (descRel sort_by) :=
  ⟨fun _ _ _ h1 h2 => keyLe_trans h2 h1⟩

/-- `recs.sort(key=_val_for_sort, reverse=(sort_dir == "desc"))` (source
lines 555-556).  CPython's sort is stable; a stable sort for a total
preorder is unique, so the stable `insertionSort` computes the same list. -/
def sortRecs (sort_by sort_dir : String) (recs : List Rec) : List Rec :=
  if sort_dir = "desc" then List.insertionSort (descRel sort_by) recs
  else List.insertionSort (ascRel sort_by) recs

/-- A record whose `score` field is present (and numeric). -/
def recSortP : Rec :=
  { code := "c1", machine := "m1", test := "t", file := "a"
    date_ts := none, mtime_ts := some 1, dateRaw := none
    fields := [("score", Val.num 1)] }

/-- A record whose `score` field is missing. -/
def recSortM : Rec :=
  { code := "c2", machine := "m2", test := "t", file := "b"
    date_ts := none, mtime_ts := some 2, dateRaw := none
    fields := [] }

/-- C2 counterexample: under `sortDir = desc` the record with a missing
`score` is placed *before* the record with a present `score`: the reversal
applies to the whole sort key, including the missing-value marker, so
missing values do not sort last regardless of direction. -/
theorem desc_places_missing_first :
    sortRecs "score" "desc" [recSortP, recSortM] = [recSortM, recSortP] ∧
    sortValMissing "score" recSortM = true ∧
    sortValMissing "score" recSortP = false := by
  refine ⟨?_, rfl, rfl⟩
  rfl

theorem keyOfVal_fst (v : Val) :
    (keyOfVal v).1 = if v = Val.null then 1 else 0 := by
  by_cases h : v = Val.null
  · simp [keyOfVal, h]
  · cases htf : tryFloat v <;> simp [keyOfVal, h, htf]

theorem missing_mono_asc (sort_by : String) (a b : Rec) (hrel : ascRel sort_by a b)
    (ha : sortValMissing sort_by a = true) : sortValMissing sort_by b = true := by
  unfold sortValMissing at ha ⊢
  unfold ascRel valForSort at hrel
  have h1 := keyLe_fst_le hrel
  rw [keyOfVal_fst, keyOfVal_fst] at h1
  rw [if_pos (of_decide_eq_true ha)] at h1
  by_cases hb : sortValOf sort_by b = Val.null
  · exact decide_eq_true hb
  · rw [if_neg hb] at h1
    omega

theorem missing_mono_desc (sort_by : String) (a b : Rec) (hrel : descRel sort_by a b)
    (hb : sortValMissing sort_by b = true) : sortValMissing sort_by a = true := by
  unfold sortValMissing at hb ⊢
  unfold descRel valForSort at hrel
  have h1 := keyLe_fst_le hrel
  rw [keyOfVal_fst, keyOfVal_fst] at h1
  rw [if_pos (of_decide_eq_true hb)] at h1
  by_cases ha : sortValOf sort_by a = Val.null
  · exact decide_eq_true ha
  · rw [if_neg ha] at h1
    omega

/-- C2 amended: the initial sort is a permutation ordered by the
`_val_for_sort` tuples — ascending for `sortDir = asc`, with missing values
last (a missing value never precedes a present one); under
`sortDir = desc` the *entire* comparison is reversed, missing-value marker
included, so missing values are placed first, not last. -/
theorem sort_by_field_ordering (sort_by : String) (recs : List Rec) :
    (sortRecs sort_by "asc" recs).Perm recs ∧
    (sortRecs sort_by "desc" recs).Perm recs ∧
    List.Sorted (ascRel sort_by) (sortRecs sort_by "asc" recs) ∧
    List.Sorted (descRel sort_by) (sortRecs sort_by "desc" recs) ∧
    List.Pairwise
      (fun a b => sortValMissing sort_by a = true → sortValMissing sort_by b = true)
      (sortRecs sort_by "asc" recs) ∧
    List.Pairwise
      (fun a b => sortValMissing sort_by b = true → sortValMissing sort_by a = true)
      (sortRecs sort_by "desc" recs) := by
  have hasc : sortRecs sort_by "asc" recs = List.insertionSort (ascRel sort_by) recs := by
    simp [sortRecs]
  have hdesc : sortRecs sort_by "desc" recs = List.insertionSort (descRel sort_by) recs := by
    simp [sortRecs]
  refine ⟨?_, ?_, ?_, ?_, ?_, ?_⟩
  · rw [hasc]; exact List.perm_insertionSort _ recs
  · rw [hdesc]; exact List.perm_insertionSort _ recs
  · rw [hasc]; exact List.sorted_insertionSort _ recs
  · rw [hdesc]; exact List.sorted_insertionSort _ recs
  · rw [hasc]
    exact (List.sorted_insertionSort _ recs).imp
      (fun hab => missing_mono_asc sort_by _ _ hab)
  · rw [hdesc]
    exact (List.sorted_insertionSort _ recs).imp
      (fun hab => missing_mono_desc sort_by _ _ hab)

/-- Registry used by the C5 witness: benchmark `t2` declares keys
`["a", "b"]`. -/
def bdC5w : BenchDef :=
  { defaultBenchDef "t2" false with template_keys := ["a", "b"] }

def bmC5w : List (String × BenchDef) := [("t2", bdC5w)]

def treeC5w : List CodeE :=
  [⟨"c", [⟨"m", [⟨"t2", [⟨"x", true, some (Json.obj [("a", Json.num 1)])⟩]⟩]⟩]⟩]

/-- Witness for the amended C5 at a concrete registry and result tree. -/
theorem declared_template_keys_used_witness :
    List.lookup "t2" bmC5w = some bdC5w ∧ bdC5w.template_keys ≠ [] ∧
    ∀ r ∈ discover_results bmC5w treeC5w, r.test = "t2" →
      r.usedKeys = bdC5w.template_keys ∧ r.extracted.map Prod.fst = bdC5w.template_keys :=
  ⟨rfl, by decide,
   declared_template_keys_used bmC5w treeC5w "t2" bdC5w rfl (by decide)⟩

/- ### ReportRenderer: table headers (source lines 568-600)

Each header cell is modelled by its label, whether it carries an `onclick`
sort handler, the column index passed to that handler, and the initial sort
indicator class. -/

structure HeaderCell where
  label : String
  sortable : Bool
  col : Option Nat
  initSort : Option Bool
deriving DecidableEq, Repr

/-- Python `kk.replace("_", " ").title()` (source line 580): title-casing
upcases a letter that follows a non-letter and downcases other letters. -/
def titleCase : List Char → Bool → List Char
  | [], _ => []
  | c :: cs, prevAlpha =>
      (if c.isAlpha then (if prevAlpha then c.toLower else c.toUpper) else c) ::
        titleCase cs c.isAlpha

def humanize (s : String) : String :=
  String.mk (titleCase (s.data.map (fun c => if c = '_' then ' ' else c)) false)

/-- The initial sort indicator class of a header cell (source lines
585-593): `sort-asc` or `sort-desc` when the column is the declared sort
column. -/
def initCls (kk : String) (sort_by : Option String) (sort_dir : String) : Option Bool :=
  if sort_by = some kk ∧ sort_dir ≠ "desc" then some true
  else if sort_by = some kk ∧ sort_dir = "desc" then some false
  else none

/-- The header row (source lines 569-599): Rank, Code, Machine, one cell
per template key in declared order (`setup` rendered without a sort
handler), and a trailing Plot cell iff the benchmark declares a data
artifact. -/
def headerCells (tk : List String) (data_file : Bool) (sort_by : Option String)
    (sort_dir : String) : List HeaderCell :=
  [⟨"Rank", false, none, none⟩,
   ⟨"Code", true, some 1, none⟩,
   ⟨"Machine", true, some 2, none⟩]
  ++ tk.enum.map (fun p =>
       if p.2 = "setup" then ⟨humanize p.2, false, none, none⟩
       else ⟨humanize p.2, true, some (3 + p.1), initCls p.2 sort_by sort_dir⟩)
  ++ (if data_file then [⟨"Plot", false, none, none⟩] else [])

/-- C7: the rendered columns are exactly Rank, Code, Machine, one column
per resolved template key in declared order with humanized label, and a
trailing Plot column iff the benchmark declares a data artifact — no
column for any key outside that list. -/
theorem header_columns (tk : List String) (df : Bool) (sb : Option String) (sd : String) :
    (headerCells tk df sb sd).map (fun c => c.label) =
      ["Rank", "Code", "Machine"] ++ tk.map humanize ++
        (if df then ["Plot"] else []) ∧
    (headerCells tk df sb sd).length = 3 + tk.length + (if df then 1 else 0) := by
  constructor
  · simp only [headerCells, List.map_append, List.map_map]
    congr 1
    congr 1
    · have hfun : ((fun c : HeaderCell => c.label) ∘ (fun p : Nat × String =>
          if p.2 = "setup" then (⟨humanize p.2, false, none, none⟩ : HeaderCell)
          else ⟨humanize p.2, true, some (3 + p.1), initCls p.2 sb sd⟩)) =
          (fun p : Nat × String => humanize p.2) := by
        funext p
        by_cases h : p.2 = "setup" <;> simp [h]
      rw [hfun]
      rw [show (fun p : Nat × String => humanize p.2) =
            humanize ∘ Prod.snd from rfl]
      rw [← List.map_map, List.enum_map_snd]
    · cases df <;> simp
  · simp only [headerCells, List.length_append, List.length_map, List.enum_length]
    cases df <;> simp

/- ### No initial sort for the non-sortable `setup` column (source lines
486-489, 536-567, 580-583) -/

/-- Source lines 487-489: `if sort_by == "setup": sort_by = None`. -/
def applySetupGuard (sort_by : Option String) : Option String :=
  if sort_by = some "setup" then none else sort_by

/-- Source lines 536-559: apply the initial sort when `sort_by` is truthy
and there are records, and compute the header-indicator column when the
sort key is among the template keys. -/
def initialSortAndCol (sort_by0 : Option String) (sort_dir : String) (tk : List String)
    (recs : List Rec) : List Rec × Option Nat :=
  match applySetupGuard sort_by0 with
  | none => (recs, none)
  | some s =>
      if s ≠ "" ∧ recs ≠ [] then
        (sortRecs s sort_dir recs,
         if tk.contains s then some (3 + tk.indexOf s) else none)
      else (recs, none)

/-- Whether the header cell at position `j` carries a sort handler. -/
def cellSortableAt (cells : List HeaderCell) (j : Nat) : Bool :=
  match cells[j]? with
  | some c => c.sortable
  | none => false

/-- C10: when the benchmark declares `sortBy = "setup"`, no initial sort is
applied (the kept records stay in discovery order and no sort-indicator
column is attached), and every `setup` header cell is rendered without a
sort handler. -/
theorem setup_sortBy_disables_initial_sort (sort_dir : String) (tk : List String)
    (df : Bool) (recs : List Rec) :
    initialSortAndCol (some "setup") sort_dir tk recs = (recs, none) ∧
    (∀ i, ∀ hi : i < tk.length, tk.get ⟨i, hi⟩ = "setup" →
      cellSortableAt (headerCells tk df (applySetupGuard (some "setup")) sort_dir)
        (3 + i) = false) := by
  constructor
  · simp [initialSortAndCol, applySetupGuard]
  · intro i hi hset
    unfold cellSortableAt
    have hcells : (headerCells tk df (applySetupGuard (some "setup")) sort_dir)[3 + i]? =
        some ⟨humanize "setup", false, none, none⟩ := by
      unfold headerCells
      rw [List.getElem?_append]
      rw [if_pos (by simp only [List.length_append, List.length_map, List.enum_length,
        List.length_cons, List.length_nil]; omega)]
      rw [List.getElem?_append]
      rw [if_neg (by simp only [List.length_cons, List.length_nil]; omega)]
      simp only [List.length_cons, List.length_nil]
      have h3 : 3 + i - (0 + 1 + 1 + 1) = i := by omega
      rw [h3]
      rw [List.getElem?_map, List.getElem?_enum]
      rw [List.getElem?_eq_getElem hi]
      have hgv : tk[i] = "setup" := hset
      simp [hgv]
    rw [hcells]

/-- Witness for C10 at a concrete input. -/
theorem setup_sortBy_disables_initial_sort_witness :
    initialSortAndCol (some "setup") "asc" ["setup"] [] = ([], none) ∧
    cellSortableAt (headerCells ["setup"] true (applySetupGuard (some "setup")) "asc")
      (3 + 0) = false :=
  ⟨(setup_sortBy_disables_initial_sort "asc" ["setup"] true []).1,
   (setup_sortBy_disables_initial_sort "asc" ["setup"] true []).2 0 (by decide) rfl⟩

/- ### ReportRenderer: sections (source lines 246-248, 476-509)

`results_by_test` groups records by `test` via `setdefault(...).append`,
`deduped_by_test` maps `dedup` over the groups, and the renderer walks
`sorted(deduped_by_test.items())` emitting one section per entry. -/

/-- `results_by_test.setdefault(test, []).append(rec)` (source line 248). -/
def addToGroup (t : String) (r : Rec) : List (String × List Rec) → List (String × List Rec)
  | [] => [(t, [r])]
  | (t2, g) :: gs => if t2 = t then (t2, g ++ [r]) :: gs else (t2, g) :: addToGroup t r gs

/-- Grouping by test in discovery order (source lines 246-248). -/
def groupByTest (records : List Rec) : List (String × List Rec) :=
  records.foldl (fun gs r => addToGroup r.test r gs) []

/-- Per-test deduplication of the groups (source lines 253-279). -/
def dedupedByTest (records : List Rec) : List (String × List Rec) :=
  (groupByTest records).map (fun p => (p.1, dedup p.2))

/-- Comparison of `(test, group)` pairs by key, as Python compares the
items of `deduped_by_test` (keys are distinct, so only keys compare). -/
def groupLe (a b : String × List Rec) : Prop := a.1 ≤ b.1

instance : DecidableRel groupLe := fun a b => by
  unfold groupLe
  infer_instance

instance : IsTotal (String × List Rec) groupLe :=
  ⟨fun a b => le_total a.1 b.1⟩

instance : IsTrans (String × List Rec) groupLe :=
  ⟨fun _ _ _ h1 h2 => le_trans h1 h2⟩

/-- Python `sorted(deduped_by_test.items())`: the keys are distinct, so the
pairs sort by key. -/
def sortedGroups (gs : List (String × List Rec)) : List (String × List Rec) :=
  List.insertionSort groupLe gs

/-- One rendered benchmark section (source lines 479-509): heading anchor
and title, description, tag chips, optional README link, and the table
rows. -/
structure SectionE where
  test : String
  title : Json
  description : Json
  tags : Json
  readme : Option String
  rows : List Rec

/-- Metadata resolution for one section (source lines 480-484):
`meta = benchmarks.get(test_name, {})` with per-field defaults. -/
def renderSection (benchmarks : List (String × BenchDef)) (tname : String)
    (rows : List Rec) : SectionE :=
  match benchmarks.lookup tname with
  | some meta =>
      ⟨tname, meta.name, meta.description,
       if truthyJson meta.tags then meta.tags else Json.arr [],
       meta.readme, rows⟩
  | none => ⟨tname, Json.str tname, Json.str "", Json.arr [], none, rows⟩

/-- The section list of the rendered document (source lines 476-509): one
section per entry of `deduped_by_test`, in sorted key order. -/
def sectionsOf (benchmarks : List (String × BenchDef)) (records : List Rec) :
    List SectionE :=
  (sortedGroups (dedupedByTest records)).map
    (fun p => renderSection benchmarks p.1 p.2)

theorem renderSection_test (benchmarks : List (String × BenchDef)) (tname : String)
    (rows : List Rec) : (renderSection benchmarks tname rows).test = tname := by
  unfold renderSection
  cases benchmarks.lookup tname <;> rfl

theorem addToGroup_keys (t : String) (r : Rec) (gs : List (String × List Rec)) :
    (addToGroup t r gs).map Prod.fst =
      if t ∈ gs.map Prod.fst then gs.map Prod.fst else gs.map Prod.fst ++ [t] := by
  induction gs with
  | nil => simp [addToGroup]
  | cons p gs ih =>
      obtain ⟨t2, g⟩ := p
      by_cases h : t2 = t
      · subst h
        simp [addToGroup]
      · simp only [addToGroup, h, if_neg, not_false_eq_true, List.map_cons, ih]
        by_cases hmem : t ∈ gs.map Prod.fst
        · rw [if_pos hmem, if_pos (by simp [hmem])]
        · rw [if_neg hmem, if_neg (by simp [hmem]; exact fun hc => h hc.symm)]
          simp

theorem groupByTest_aux_mem (l : List Rec) : ∀ (acc : List (String × List Rec)) (t : String),
    t ∈ (l.foldl (fun gs r => addToGroup r.test r gs) acc).map Prod.fst ↔
      t ∈ acc.map Prod.fst ∨ ∃ r ∈ l, r.test = t := by
  induction l with
  | nil => intro acc t; simp
  | cons r l ih =>
      intro acc t
      rw [List.foldl_cons, ih]
      have hadd : t ∈ (addToGroup r.test r acc).map Prod.fst ↔
          t ∈ acc.map Prod.fst ∨ r.test = t := by
        rw [addToGroup_keys]
        by_cases hmem : r.test ∈ acc.map Prod.fst
        · rw [if_pos hmem]
          constructor
          · exact Or.inl
          · rintro (h | rfl)
            · exact h
            · exact hmem
        · rw [if_neg hmem]
          simp only [List.mem_append, List.mem_singleton]
          constructor
          · rintro (h | rfl)
            · exact Or.inl h
            · exact Or.inr rfl
          · rintro (h | rfl)
            · exact Or.inl h
            · exact Or.inr rfl
      rw [hadd]
      constructor
      · rintro ((h | h) | ⟨r2, hr2, ht⟩)
        · exact Or.inl h
        · exact Or.inr ⟨r, List.mem_cons_self _ _, h⟩
        · exact Or.inr ⟨r2, List.mem_cons_of_mem _ hr2, ht⟩
      · rintro (h | ⟨r2, hr2, ht⟩)
        · exact Or.inl (Or.inl h)
        · rcases List.mem_cons.mp hr2 with rfl | hr2l
          · exact Or.inl (Or.inr ht)
          · exact Or.inr ⟨r2, hr2l, ht⟩

theorem groupByTest_mem (records : List Rec) (t : String) :
    t ∈ (groupByTest records).map Prod.fst ↔ ∃ r ∈ records, r.test = t := by
  rw [groupByTest, groupByTest_aux_mem]
  simp

theorem groupByTest_aux_nodup (l : List Rec) : ∀ (acc : List (String × List Rec)),
    (acc.map Prod.fst).Nodup →
    ((l.foldl (fun gs r => addToGroup r.test r gs) acc).map Prod.fst).Nodup := by
  induction l with
  | nil => intro acc h; exact h
  | cons r l ih =>
      intro acc h
      rw [List.foldl_cons]
      apply ih
      rw [addToGroup_keys]
      by_cases hmem : r.test ∈ acc.map Prod.fst
      · rw [if_pos hmem]; exact h
      · rw [if_neg hmem]
        simp only [List.nodup_append, List.nodup_cons, List.nodup_nil]
        refine ⟨h, by simp, ?_⟩
        intro a ha hc
        rw [List.mem_singleton] at hc
        subst hc
        exact hmem ha

theorem groupByTest_nodup (records : List Rec) :
    ((groupByTest records).map Prod.fst).Nodup :=
  groupByTest_aux_nodup records [] (by simp)

theorem renderSection_rows (benchmarks : List (String × BenchDef)) (tname : String)
    (rows : List Rec) : (renderSection benchmarks tname rows).rows = rows := by
  unfold renderSection
  cases benchmarks.lookup tname <;> rfl

theorem sections_map_test (benchmarks : List (String × BenchDef)) (records : List Rec) :
    (sectionsOf benchmarks records).map (fun s => s.test) =
      (sortedGroups (dedupedByTest records)).map Prod.fst := by
  unfold sectionsOf
  rw [List.map_map]
  have hfun : ((fun s : SectionE => s.test) ∘
      fun p : String × List Rec => renderSection benchmarks p.1 p.2) = Prod.fst := by
    funext p
    exact renderSection_test benchmarks p.1 p.2
  rw [hfun]

theorem dedupedByTest_keys (records : List Rec) :
    (dedupedByTest records).map Prod.fst = (groupByTest records).map Prod.fst := by
  unfold dedupedByTest
  rw [List.map_map]
  rfl

/-- C8 counterexample: a benchmark present in the registry but with no
discovered result records yields no section at all, so there is not one
section per benchmark known to the registry. -/
theorem registry_benchmark_without_records_has_no_section :
    ¬ ∃ s ∈ sectionsOf [("alpha", defaultBenchDef "alpha" false)] ([] : List Rec),
        s.test = "alpha" := by
  rintro ⟨s, hs, _⟩
  have hempty : sectionsOf [("alpha", defaultBenchDef "alpha" false)] ([] : List Rec) = [] := rfl
  rw [hempty] at hs
  exact List.not_mem_nil s hs

/-- C8 amended: the document contains exactly one section per *test that
has at least one discovered record* (a registry benchmark with no records
yields no section; a test with records but absent from the registry yields
a section with default metadata), sections are ordered alphabetically by
test name, and each section carries the metadata resolved for its test
together with its table rows. -/
theorem sections_one_per_test_with_records (benchmarks : List (String × BenchDef))
    (records : List Rec) :
    (∀ t, (∃ s ∈ sectionsOf benchmarks records, s.test = t) ↔
        ∃ r ∈ records, r.test = t) ∧
    ((sectionsOf benchmarks records).map (fun s => s.test)).Sorted (· ≤ ·) ∧
    ((sectionsOf benchmarks records).map (fun s => s.test)).Nodup ∧
    (∀ s ∈ sectionsOf benchmarks records, s = renderSection benchmarks s.test s.rows) := by
  have hperm : (sortedGroups (dedupedByTest records)).Perm (dedupedByTest records) :=
    List.perm_insertionSort groupLe (dedupedByTest records)
  have hpermkeys : ((sortedGroups (dedupedByTest records)).map Prod.fst).Perm
      ((groupByTest records).map Prod.fst) := by
    rw [← dedupedByTest_keys]
    exact hperm.map Prod.fst
  refine ⟨?_, ?_, ?_, ?_⟩
  · intro t
    have h1 : (∃ s ∈ sectionsOf benchmarks records, s.test = t) ↔
        t ∈ (sectionsOf benchmarks records).map (fun s => s.test) := by
      rw [List.mem_map]
    rw [h1, sections_map_test, hpermkeys.mem_iff, groupByTest_mem]
  · rw [sections_map_test]
    have hsorted : List.Sorted groupLe (sortedGroups (dedupedByTest records)) :=
      List.sorted_insertionSort groupLe (dedupedByTest records)
    exact List.pairwise_map.mpr hsorted
  · rw [sections_map_test]
    exact (hpermkeys.nodup_iff).mpr (groupByTest_nodup records)
  · intro s hs
    unfold sectionsOf at hs
    rcases List.mem_map.mp hs with ⟨p, _, hp⟩
    rw [← hp, renderSection_test, renderSection_rows]

/-- Witness for the amended C8 at a concrete input: one registered
benchmark with one record. -/
theorem sections_one_per_test_with_records_witness :
    ((∃ s ∈ sectionsOf [("t", defaultBenchDef "t" false)] [recSortP],
        s.test = "t") ↔ ∃ r ∈ [recSortP], r.test = "t") ∧
    ((sectionsOf [("t", defaultBenchDef "t" false)] [recSortP]).map
        (fun s => s.test)).Sorted (· ≤ ·) ∧
    ((sectionsOf [("t", defaultBenchDef "t" false)] [recSortP]).map
        (fun s => s.test)).Nodup ∧
    (∀ s ∈ sectionsOf [("t", defaultBenchDef "t" false)] [recSortP],
        s = renderSection [("t", defaultBenchDef "t" false)] s.test s.rows) :=
  ⟨(sections_one_per_test_with_records [("t", defaultBenchDef "t" false)] [recSortP]).1 "t",
   (sections_one_per_test_with_records [("t", defaultBenchDef "t" false)] [recSortP]).2.1,
   (sections_one_per_test_with_records [("t", defaultBenchDef "t" false)] [recSortP]).2.2.1,
   (sections_one_per_test_with_records [("t", defaultBenchDef "t" false)] [recSortP]).2.2.2⟩

/- ### ReportRenderer: code and machine cells (source lines 296-303,
606-619)

`code.json` contents are modelled as flat objects of scalar values (`none`
= file missing or unparseable).  `code_urls` is keyed by the *raw* code
names of `unique_codes`; the cell renderer then looks it up with the
*escaped* code name. -/

/-- `code_urls` construction (source lines 296-303). -/
def buildCodeUrls (codeFiles : List (String × Option (List (String × Val))))
    (codes : List String) : List (String × Val) :=
  codes.map fun c =>
    match codeFiles.lookup c with
    | some (some fields) =>
        if !fields.isEmpty then
          (c, match fields.lookup "url" with
              | some v => v
              | none => Val.str "")
        else (c, Val.str "")
    | _ => (c, Val.str "")

/-- A rendered table cell that is either a hyperlink or plain text. -/
structure CellLink where
  linked : Bool
  href : String
  label : String
deriving DecidableEq, Repr

/-- The Code cell (source lines 606-614): escaped label; a link iff the
URL looked up under the *escaped* code name is truthy. -/
def renderCodeCell (codeUrls : List (String × Val)) (code : String) : CellLink :=
  match codeUrls.lookup (htmlEscapeS code) with
  | some v => if truthyVal v then ⟨true, htmlEscapeS (strOfVal v), htmlEscapeS code⟩
              else ⟨false, "", htmlEscapeS code⟩
  | none => ⟨false, "", htmlEscapeS code⟩

/-- The Machine cell (source lines 615-619): always a link to the
per-machine metadata file. -/
def renderMachineCell (code machine : String) : CellLink :=
  ⟨true,
   "results/" ++ htmlEscapeS code ++ "/" ++ htmlEscapeS machine ++ "/machine.json",
   htmlEscapeS machine⟩

/-- C9: evaluation at the input that decides the claim.  For the code
`a&b`, `results/a&b/code.json` declares a non-empty url, yet the rendered
Code cell is plain text: `code_urls` is keyed by the raw name while the
cell renderer looks up the escaped name `a&amp;b`.  For names unchanged by
escaping the link is produced, and the Machine cell is always a link. -/
theorem code_link_lost_for_escaped_names :
    renderCodeCell (buildCodeUrls [("a&b", some [("url", Val.str "http://x")])] ["a&b"])
        "a&b" = ⟨false, "", "a&amp;b"⟩ ∧
    renderCodeCell (buildCodeUrls [("ab", some [("url", Val.str "http://x")])] ["ab"])
        "ab" = ⟨true, "http://x", "ab"⟩ ∧
    renderMachineCell "a&b" "m1" = ⟨true, "results/a&amp;b/m1/machine.json", "m1"⟩ :=
  ⟨rfl, rfl, rfl⟩

/- ### C6: escaping of embedded user text (source lines 233-241, 500-509) -/

/-- The rendered description line (source line 501). -/
def renderDescLine (desc : List Char) : List Char :=
  ("  <div class=\"muted\">").data ++ html_escape desc ++ ("</div>").data

/-- One rendered tag chip (source line 506). -/
def renderChip (t : List Char) : List Char :=
  ("<span class=\"chip\">").data ++ html_escape t ++ ("</span>").data

/-- C6: the escaping function replaces exactly the five markup-significant
characters by their entities, character-wise (so replacing `&` first leaves
nothing raw or double-escaped); no raw `<`, `>`, `"` or `'` survives in
escaped text; `<script>` escapes to `&lt;script&gt;`; and the description
and tag-chip renderings contain no `<` beyond the ones of their fixed
markup template, whatever the user text. -/
theorem user_text_escaped (s : List Char) :
    html_escape s = escaped s ∧
    (∀ d ∈ html_escape s, d ≠ '<' ∧ d ≠ '>' ∧ d ≠ quoteC ∧ d ≠ aposC) ∧
    html_escape (("<script>").data) = ("&lt;script&gt;").data ∧
    (renderDescLine s).count '<' = (renderDescLine []).count '<' ∧
    (renderChip s).count '<' = (renderChip []).count '<' := by
  have hnotin : '<' ∉ html_escape s := fun h => (html_escape_safe s _ h).1 rfl
  have hzero : (html_escape s).count '<' = 0 := List.count_eq_zero.mpr hnotin
  refine ⟨html_escape_eq_escaped s, fun d hd => html_escape_safe s d hd, rfl, ?_, ?_⟩
  · simp [renderDescLine, List.count_append, hzero, html_escape_nil]
  · simp [renderChip, List.count_append, hzero, html_escape_nil]

/-- Witness for C6 at a concrete input. -/
theorem user_text_escaped_witness :
    html_escape (("<script>").data) = escaped (("<script>").data) ∧
    (('&' ∈ html_escape (("<script>").data)) →
      ('&' : Char) ≠ '<' ∧ ('&' : Char) ≠ '>' ∧ ('&' : Char) ≠ quoteC ∧ ('&' : Char) ≠ aposC) ∧
    (renderDescLine (("<script>").data)).count '<' =
      (renderDescLine []).count '<' :=
  ⟨(user_text_escaped (("<script>").data)).1,
   fun h => (user_text_escaped (("<script>").data)).2.1 '&' h,
   (user_text_escaped (("<script>").data)).2.2.2.1⟩
